import Mathlib

/-!
Verification of the `text_trees` tree-rendering library.

The embedding models `src/lib.rs`. Rust strings are modelled as lists of
characters (`Str`), `std::io::Write` sinks as state-passing write functions
that may fail (`σ → Str → σ × Option ε`), and the recursive renderer
`write_tree_inner` as a pure function producing the written text.
-/

namespace TextTrees

/-- Strings are modelled as lists of characters. -/
abbrev Str := List Char

/-- The newline character written by `writeln!`. -/
def nl : Char := Char.ofNat 10

/-- The U+0027 apostrophe character (Rust literal for
`right_facing_angle` in the ASCII preset). -/
def quote : Char := Char.ofNat 39

/-- Model of `char_repeat(c, n)`: `c.to_string().as_str().repeat(n)`. -/
def char_repeat (c : Char) (n : Nat) : Str := List.replicate n c

/-- Model of `enum TreeOrientation`. -/
inductive TreeOrientation where
  | TopDown
deriving DecidableEq

/-- Model of `enum AnchorPosition`. -/
inductive AnchorPosition where
  | Below
  | Left
deriving DecidableEq

/-- Model of `struct FormatCharacters`. -/
structure FormatCharacters where
  down_facing_angle : Char
  down_facing_tee : Char
  vertical_line : Char
  horizontal_line : Char
  horizontal_space : Char
  horizontal_line_count : Nat
  right_facing_tee : Char
  right_facing_angle : Char
  label_space_char : Char
  label_space_count : Nat
deriving DecidableEq

/-- Model of `struct TreeFormatting`. -/
structure TreeFormatting where
  prefix_str : Option Str
  orientation : TreeOrientation
  anchor : AnchorPosition
  chars : FormatCharacters
deriving DecidableEq

/-- Model of `FormatCharacters::ascii()`. -/
def FormatCharacters.ascii : FormatCharacters where
  down_facing_angle := '+'
  down_facing_tee := ','
  vertical_line := '|'
  horizontal_line := '-'
  horizontal_space := ' '
  horizontal_line_count := 2
  right_facing_tee := '+'
  right_facing_angle := quote
  label_space_char := ' '
  label_space_count := 1

/-- Model of `FormatCharacters::box_chars()`. -/
def FormatCharacters.box_chars : FormatCharacters where
  down_facing_angle := '┌'
  down_facing_tee := '┬'
  vertical_line := '│'
  horizontal_line := '─'
  horizontal_space := ' '
  horizontal_line_count := 2
  right_facing_tee := '├'
  right_facing_angle := '└'
  label_space_char := ' '
  label_space_count := 1

/-- Model of `FormatCharacters::horizontal_line()` (the repeated string). -/
def FormatCharacters.horizontal_line_string (c : FormatCharacters) : Str :=
  char_repeat c.horizontal_line c.horizontal_line_count

/-- Model of `FormatCharacters::horizontal_space()` (the repeated string). -/
def FormatCharacters.horizontal_space_string (c : FormatCharacters) : Str :=
  char_repeat c.horizontal_space c.horizontal_line_count

/-- Model of `FormatCharacters::label_space()`. -/
def FormatCharacters.label_space (c : FormatCharacters) : Str :=
  char_repeat c.label_space_char c.label_space_count

/-- Model of `FormatCharacters::just_space()`. -/
def FormatCharacters.just_space (c : FormatCharacters) : Str :=
  [c.horizontal_space] ++ c.horizontal_space_string

/-- Model of `FormatCharacters::bar_and_space()`. -/
def FormatCharacters.bar_and_space (c : FormatCharacters) : Str :=
  [c.vertical_line] ++ c.horizontal_space_string

/-- Model of `TreeFormatting::just_space()`. -/
def TreeFormatting.just_space (f : TreeFormatting) : Str :=
  f.chars.just_space ++
    (if f.anchor = AnchorPosition.Below ∧ 0 < f.chars.label_space_count then
      [f.chars.horizontal_space]
    else [])

/-- Model of `TreeFormatting::bar_and_space()`. -/
def TreeFormatting.bar_and_space (f : TreeFormatting) : Str :=
  f.chars.bar_and_space ++
    (if f.anchor = AnchorPosition.Below ∧ 0 < f.chars.label_space_count then
      [f.chars.horizontal_space]
    else [])

/-- Model of `TreeFormatting::tee(has_children)`. -/
def TreeFormatting.tee (f : TreeFormatting) (has_children : Bool) : Str :=
  [f.chars.right_facing_tee] ++ f.chars.horizontal_line_string ++
    (if f.anchor = AnchorPosition.Below then []
     else if has_children then [f.chars.down_facing_tee]
     else [f.chars.horizontal_line]) ++
    f.chars.label_space

/-- Model of `TreeFormatting::angle(has_children)`. -/
def TreeFormatting.angle (f : TreeFormatting) (has_children : Bool) : Str :=
  [f.chars.right_facing_angle] ++ f.chars.horizontal_line_string ++
    (if f.anchor = AnchorPosition.Below then []
     else if has_children then [f.chars.down_facing_tee]
     else [f.chars.horizontal_line]) ++
    f.chars.label_space

/-- Model of `TreeFormatting::dir_tree(chars)`. -/
def TreeFormatting.dir_tree (chars : FormatCharacters) : TreeFormatting where
  prefix_str := none
  orientation := TreeOrientation.TopDown
  anchor := AnchorPosition.Below
  chars := chars

/-- Model of `TreeFormatting::dir_tree_with_prefix(chars, prefix_str)`. -/
def TreeFormatting.dir_tree_with_pre (chars : FormatCharacters) (p : Str) : TreeFormatting where
  prefix_str := some p
  orientation := TreeOrientation.TopDown
  anchor := AnchorPosition.Below
  chars := chars

/-- Model of `TreeFormatting::dir_tree_left(chars)`. -/
def TreeFormatting.dir_tree_left (chars : FormatCharacters) : TreeFormatting where
  prefix_str := none
  orientation := TreeOrientation.TopDown
  anchor := AnchorPosition.Left
  chars := chars

/-- Model of `TreeFormatting::dir_tree_left_with_prefix(chars, prefix_str)`. -/
def TreeFormatting.dir_tree_left_with_pre (chars : FormatCharacters) (p : Str) : TreeFormatting where
  prefix_str := some p
  orientation := TreeOrientation.TopDown
  anchor := AnchorPosition.Left
  chars := chars

/-- Model of `struct TreeNode<T>`: a data value and an owned, ordered list of
children (`Vec<TreeNode<T>>`). -/
inductive TreeNode (α : Type) where
  | mk (data : α) (children : List (TreeNode α))

/-- Model of the `data` field access. -/
def TreeNode.data {α : Type} : TreeNode α → α
  | .mk d _ => d

/-- Model of the `children` field access. -/
def TreeNode.children {α : Type} : TreeNode α → List (TreeNode α)
  | .mk _ cs => cs

/-- Model of `TreeNode::new(data)`. -/
def TreeNode.new {α : Type} (data : α) : TreeNode α := .mk data []

/-- Model of `TreeNode::with_child_nodes(data, children)`. -/
def TreeNode.with_child_nodes {α : Type} (data : α) (children : List (TreeNode α)) :
    TreeNode α := .mk data children

/-- Model of `TreeNode::with_children(data, children)`: each child value
becomes a leaf node. -/
def TreeNode.with_children {α : Type} (data : α) (children : List α) : TreeNode α :=
  TreeNode.with_child_nodes data (children.map TreeNode.new)

/-- Model of `TreeNode::push_node(child)`: `self.children.push(child)`.
Mutation is modelled by returning the updated node. -/
def TreeNode.push_node {α : Type} : TreeNode α → TreeNode α → TreeNode α
  | .mk d cs, child => .mk d (cs ++ [child])

/-- Model of `TreeNode::push(data)`: wraps the value as a leaf and appends it. -/
def TreeNode.push {α : Type} (t : TreeNode α) (data : α) : TreeNode α :=
  t.push_node (.mk data [])

/-- Model of `TreeNode::has_children()`: `!self.children.is_empty()`. -/
def TreeNode.has_children {α : Type} : TreeNode α → Bool
  | .mk _ cs => !cs.isEmpty

/-- Model of `TreeNode::label()` for string-labelled trees
(`StringTreeNode`): `self.data.to_string()` is the data itself. -/
def TreeNode.label (t : TreeNode Str) : Str := t.data

mutual
/-- Number of nodes of a tree (used for the line-count property). -/
def node_count {α : Type} : TreeNode α → Nat
  | .mk _ cs => 1 + node_count_list cs
def node_count_list {α : Type} : List (TreeNode α) → Nat
  | [] => 0
  | c :: rest => node_count c + node_count_list rest
end

mutual
/-- Depth of a tree (number of node levels; a leaf has depth 1). -/
def depth {α : Type} : TreeNode α → Nat
  | .mk _ cs => 1 + depth_list cs
def depth_list {α : Type} : List (TreeNode α) → Nat
  | [] => 0
  | c :: rest => max (depth c) (depth_list rest)
end

/-- The glyph string chosen for one ancestor row, from the pair
`(*remaining_children, row == stack_depth - 1)` exactly as in the `match`
of `write_tree_inner`. -/
def rowGlyph (f : TreeFormatting) (remaining : Nat) (is_last_row : Bool)
    (has_children : Bool) : Str :=
  match remaining, is_last_row with
  | 1, true => f.angle has_children
  | 1, false => f.just_space
  | _, true => f.tee has_children
  | _, false => f.bar_and_space

/-- The concatenation of row glyphs produced by the
`for (row, remaining_children) in remaining_children_stack.iter().enumerate()`
loop of `write_tree_inner`: only the final row of the stack has
`row == stack_depth - 1`. -/
def rowsFor (f : TreeFormatting) (has_children : Bool) : List Nat → Str
  | [] => []
  | [r] => rowGlyph f r true has_children
  | r :: rest => rowGlyph f r false has_children ++ rowsFor f has_children rest

/-- The text written for the optional `prefix_str` of a line. -/
def prefixPart (f : TreeFormatting) : Str :=
  match f.prefix_str with
  | some p => p
  | none => []

/-- The text written for the root glyph: emitted only when
`!(anchor == Below) && remaining_children_stack.is_empty()`. -/
def rootPart (f : TreeFormatting) (stack : List Nat) : Str :=
  if ¬(f.anchor = AnchorPosition.Below) ∧ stack = [] then
    [f.chars.down_facing_angle] ++ char_repeat f.chars.label_space_char f.chars.label_space_count
  else []

/-- The single line written for one node by `write_tree_inner` (without the
terminating newline): prefix, root glyph (roots with `Left` anchor only),
one glyph per ancestor row, then the label. -/
def line_for (f : TreeFormatting) (t : TreeNode Str) (stack : List Nat) : Str :=
  prefixPart f ++ rootPart f stack ++ rowsFor f t.has_children stack ++ t.label

/- Model of `write_tree_inner` as the text it writes. In the source, both
branches of `if node.has_children()` write the label and a newline; the
children loop pushes `d = children.len()` for the first child and decrements
`d` for each following child. -/
mutual
/-- Per-node text of `write_tree_inner`. -/
def write_tree_inner (f : TreeFormatting) : TreeNode Str → List Nat → Str
  | .mk data cs, stack =>
      line_for f (.mk data cs) stack ++ [nl] ++ write_children f cs stack cs.length
def write_children (f : TreeFormatting) : List (TreeNode Str) → List Nat → Nat → Str
  | [], _, _ => []
  | c :: rest, stack, d =>
      write_tree_inner f c (stack ++ [d]) ++ write_children f rest stack (d - 1)
end

mutual
/-- The list of lines written by `write_tree_inner`, one per node in
traversal order, without the terminating newlines. -/
def lines_of (f : TreeFormatting) : TreeNode Str → List Nat → List Str
  | .mk data cs, stack =>
      line_for f (.mk data cs) stack :: lines_children f cs stack cs.length
def lines_children (f : TreeFormatting) : List (TreeNode Str) → List Nat → Nat → List Str
  | [], _, _ => []
  | c :: rest, stack, d =>
      lines_of f c (stack ++ [d]) ++ lines_children f rest stack (d - 1)
end

/-- Split a string at each newline character (textual lines; a trailing
newline yields a final empty piece). -/
def split_lines : Str → List Str
  | [] => [[]]
  | c :: rest =>
      if c = nl then [] :: split_lines rest
      else
        match split_lines rest with
        | [] => [[c]]
        | l :: ls => (c :: l) :: ls

/-- Result of a fallible write sequence: continue with the state only on
success, exactly like the `?` operator on `io::Result`. -/
def wbind {σ ε : Type} (r : σ × Option ε) (k : σ → σ × Option ε) : σ × Option ε :=
  match r with
  | (st, none) => k st
  | (st, some e) => (st, some e)

/-- Run a list of write calls against a sink `wr`, stopping at the first
failing write and returning its state and error. -/
def run_writes {σ ε : Type} (wr : σ → Str → σ × Option ε) : List Str → σ → σ × Option ε
  | [], st => (st, none)
  | c :: rest, st => wbind (wr st c) (run_writes wr rest)

/-- One write call per iteration of the row loop of `write_tree_inner`. -/
def row_chunks (f : TreeFormatting) (has_children : Bool) : List Nat → List Str
  | [] => []
  | [r] => [rowGlyph f r true has_children]
  | r :: rest => rowGlyph f r false has_children :: row_chunks f has_children rest

mutual
/-- The `write!` calls issued by `write_tree_inner`, in order: the prefix
(when present), the root glyph (left-anchored roots only), one call per
ancestor row, the label with its newline, then the calls of the children. -/
def chunks_of (f : TreeFormatting) : TreeNode Str → List Nat → List Str
  | .mk data cs, stack =>
      (match f.prefix_str with
       | some p => [p]
       | none => []) ++
      (if ¬(f.anchor = AnchorPosition.Below) ∧ stack = [] then
        [[f.chars.down_facing_angle] ++
          char_repeat f.chars.label_space_char f.chars.label_space_count]
      else []) ++
      row_chunks f (!cs.isEmpty) stack ++
      [data ++ [nl]] ++
      chunks_children f cs stack cs.length
def chunks_children (f : TreeFormatting) : List (TreeNode Str) → List Nat → Nat → List Str
  | [], _, _ => []
  | c :: rest, stack, d =>
      chunks_of f c (stack ++ [d]) ++ chunks_children f rest stack (d - 1)
end

mutual
/-- Model of `write_tree_inner` against a fallible sink
`wr : σ → Str → σ × Option ε`: each `write!` either succeeds, updating the
sink state, or fails, in which case the `?` operator returns the error at
once and no further write is attempted. -/
def write_tree_innerM {σ ε : Type} (wr : σ → Str → σ × Option ε) (f : TreeFormatting) :
    TreeNode Str → List Nat → σ → σ × Option ε
  | .mk data cs, stack, st =>
      wbind (match f.prefix_str with
             | some p => wr st p
             | none => (st, none)) (fun st1 =>
      wbind (if ¬(f.anchor = AnchorPosition.Below) ∧ stack = [] then
              wr st1 ([f.chars.down_facing_angle] ++
                char_repeat f.chars.label_space_char f.chars.label_space_count)
            else (st1, none)) (fun st2 =>
      wbind (run_writes wr (row_chunks f (!cs.isEmpty) stack) st2) (fun st3 =>
      wbind (wr st3 (data ++ [nl])) (fun st4 =>
      write_childrenM wr f cs stack cs.length st4))))
def write_childrenM {σ ε : Type} (wr : σ → Str → σ × Option ε) (f : TreeFormatting) :
    List (TreeNode Str) → List Nat → Nat → σ → σ × Option ε
  | [], _, _, st => (st, none)
  | c :: rest, stack, d, st =>
      wbind (write_tree_innerM wr f c (stack ++ [d]) st) (fun st2 =>
      write_childrenM wr f rest stack (d - 1) st2)
end

mutual
/-- Fuel-bounded variant of `write_tree_inner`: one unit of fuel is spent per
tree level, and the recursion gives up when the fuel runs out. Used to state
termination of the traversal. -/
def write_tree_fuel (f : TreeFormatting) : Nat → TreeNode Str → List Nat → Option Str
  | 0, _, _ => none
  | Nat.succ fuel, .mk data cs, stack =>
      match write_children_fuel f fuel cs stack cs.length with
      | some rest => some (line_for f (.mk data cs) stack ++ [nl] ++ rest)
      | none => none
def write_children_fuel (f : TreeFormatting) :
    Nat → List (TreeNode Str) → List Nat → Nat → Option Str
  | _, [], _, _ => some []
  | fuel, c :: rest, stack, d =>
      match write_tree_fuel f fuel c (stack ++ [d]),
            write_children_fuel f fuel rest stack (d - 1) with
      | some a, some b => some (a ++ b)
      | _, _ => none
end

/-- Model of the `Cursor<Vec<u8>>` sink used by `to_string_with_format`:
appending to an in-memory buffer, which never fails. -/
def cursor_write {ε : Type} (st : Str) (chunk : Str) : Str × Option ε :=
  (st ++ chunk, none)

/-- Model of `TreeNode::write_with_format`: render with an empty ancestor
stack (`Default::default()`). -/
def write_with_format {σ ε : Type} (t : TreeNode Str) (wr : σ → Str → σ × Option ε)
    (f : TreeFormatting) (st : σ) : σ × Option ε :=
  write_tree_innerM wr f t [] st

/-- Model of `TreeNode::to_string_with_format`: render into a fresh in-memory
buffer and return its contents. The buffer is a character list, so the
`String::from_utf8(...).unwrap()` step is the identity in this model (every
written chunk is itself character data). -/
def to_string_with_format (ε : Type) (t : TreeNode Str) (f : TreeFormatting) : Except ε Str :=
  match write_with_format t cursor_write f [] with
  | (buf, none) => Except.ok buf
  | (_, some e) => Except.error e

/-- True when the string does not contain the newline character. -/
def str_no_nl (s : Str) : Bool := s.all (fun c => c != nl)

/-- True when the optional prefix does not contain the newline character. -/
def opt_no_nl : Option Str → Bool
  | none => true
  | some p => str_no_nl p

/-- True when none of the glyph characters is the newline character. -/
def chars_no_nl (c : FormatCharacters) : Bool :=
  (c.down_facing_angle != nl) && (c.down_facing_tee != nl) &&
  (c.vertical_line != nl) && (c.horizontal_line != nl) &&
  (c.horizontal_space != nl) && (c.right_facing_tee != nl) &&
  (c.right_facing_angle != nl) && (c.label_space_char != nl)

mutual
/-- True when no label in the tree contains the newline character. -/
def labels_no_nl : TreeNode Str → Bool
  | .mk data cs => str_no_nl data && labels_no_nl_list cs
def labels_no_nl_list : List (TreeNode Str) → Bool
  | [] => true
  | c :: rest => labels_no_nl c && labels_no_nl_list rest
end

/-- The example tree of the crate documentation (`make_tree` in the module
doc of `lib.rs`). -/
def doc_tree : TreeNode Str :=
  TreeNode.with_child_nodes (r"root".data)
    [ TreeNode.new (r"Uncle".data),
      TreeNode.with_child_nodes (r"Parent".data)
        [ TreeNode.with_children (r"Child 1".data) [r"Grand Child 1".data],
          TreeNode.with_child_nodes (r"Child 2".data)
            [ TreeNode.with_child_nodes (r"Grand Child 2".data)
                [ TreeNode.with_children (r"Great Grand Child 2".data)
                    [r"Great Great Grand Child 2".data] ] ] ],
      TreeNode.with_children (r"Aunt".data) [r"Child 3".data] ]

/-- The lines the renderer actually produces for `doc_tree` with the ASCII
preset, below anchor and no prefix (the block shown in the module doc of
`lib.rs`); continuation columns are four characters wide. -/
def expected_doc_lines : List Str :=
  [ (r"root").data,
    (r"+-- Uncle").data,
    (r"+-- Parent").data,
    (r"|   +-- Child 1").data,
    (r"|   |   ").data ++ quote :: (r"-- Grand Child 1").data,
    (r"|   ").data ++ quote :: (r"-- Child 2").data,
    (r"|       ").data ++ quote :: (r"-- Grand Child 2").data,
    (r"|           ").data ++ quote :: (r"-- Great Grand Child 2").data,
    (r"|               ").data ++ quote :: (r"-- Great Great Grand Child 2").data,
    quote :: (r"-- Aunt").data,
    (r"    ").data ++ quote :: (r"-- Child 3").data ]

/-- The full expected output text for `doc_tree`. -/
def expected_doc_output : Str :=
  (expected_doc_lines.map (fun l => l ++ [nl])).flatten

/-- The Child 1 line claimed by the spec scenario, with a three-character
continuation column. -/
def spec_child1_line : Str := (r"|  +-- Child 1").data

/-- The ASCII character set with a two-character label spacing (legal per the
data-model invariant on counts). -/
def ascii_wide_label : FormatCharacters :=
  { FormatCharacters.ascii with label_space_count := 2 }

/-- A parent with two leaf children, used as a concrete instance. -/
def pair_tree : TreeNode Str :=
  TreeNode.with_child_nodes (r"p".data)
    [TreeNode.new (r"a".data), TreeNode.new (r"b".data)]

/-- A single leaf whose label contains an embedded newline character. -/
def nl_label_tree : TreeNode Str :=
  TreeNode.new ['a', nl, 'b']

end TextTrees

namespace TextTrees

/-- Induction over a tree with simultaneous access to all children. -/
theorem TreeNode.ind' {α : Type} {motive : TreeNode α → Prop}
    (h : ∀ d cs, (∀ c ∈ cs, motive c) → motive (.mk d cs)) : ∀ t, motive t
  | .mk d cs => h d cs (fun c _ => TreeNode.ind' h c)

theorem str_no_nl_iff (s : Str) : str_no_nl s = true ↔ nl ∉ s := by
  simp only [str_no_nl, List.all_eq_true, bne_iff_ne]
  constructor
  · intro h hmem
    exact h nl hmem rfl
  · intro h c hc he
    exact h (he ▸ hc)

theorem nl_not_mem_append {a b : Str} (ha : nl ∉ a) (hb : nl ∉ b) : nl ∉ a ++ b := by
  simp only [List.mem_append]
  rintro (h | h)
  · exact ha h
  · exact hb h

theorem nl_not_mem_repeat {c : Char} (h : c ≠ nl) (n : Nat) : nl ∉ char_repeat c n := by
  simp only [char_repeat, List.mem_replicate]
  rintro ⟨-, rfl⟩
  exact h rfl

theorem chars_no_nl_spec {c : FormatCharacters} (h : chars_no_nl c = true) :
    c.down_facing_angle ≠ nl ∧ c.down_facing_tee ≠ nl ∧ c.vertical_line ≠ nl ∧
    c.horizontal_line ≠ nl ∧ c.horizontal_space ≠ nl ∧ c.right_facing_tee ≠ nl ∧
    c.right_facing_angle ≠ nl ∧ c.label_space_char ≠ nl := by
  simp only [chars_no_nl, Bool.and_eq_true, bne_iff_ne] at h
  tauto

theorem nl_not_mem_rowGlyph {f : TreeFormatting} (h : chars_no_nl f.chars = true)
    (remaining : Nat) (lastRow : Bool) (hc : Bool) :
    nl ∉ rowGlyph f remaining lastRow hc := by
  obtain ⟨h1, h2, h3, h4, h5, h6, h7, h8⟩ := chars_no_nl_spec h
  have angle : ∀ b, nl ∉ f.angle b := by
    intro b
    unfold TreeFormatting.angle FormatCharacters.horizontal_line_string
      FormatCharacters.label_space
    refine nl_not_mem_append (nl_not_mem_append (nl_not_mem_append ?_ ?_) ?_) ?_
    · simp [Ne.symm h7]
    · exact nl_not_mem_repeat h4 _
    · split
      · simp
      · split <;> simp [Ne.symm h2, Ne.symm h4]
    · exact nl_not_mem_repeat h8 _
  have tee : ∀ b, nl ∉ f.tee b := by
    intro b
    unfold TreeFormatting.tee FormatCharacters.horizontal_line_string
      FormatCharacters.label_space
    refine nl_not_mem_append (nl_not_mem_append (nl_not_mem_append ?_ ?_) ?_) ?_
    · simp [Ne.symm h6]
    · exact nl_not_mem_repeat h4 _
    · split
      · simp
      · split <;> simp [Ne.symm h2, Ne.symm h4]
    · exact nl_not_mem_repeat h8 _
  have js : nl ∉ f.just_space := by
    unfold TreeFormatting.just_space FormatCharacters.just_space
      FormatCharacters.horizontal_space_string
    refine nl_not_mem_append (nl_not_mem_append ?_ ?_) ?_
    · simp [Ne.symm h5]
    · exact nl_not_mem_repeat h5 _
    · split <;> simp [Ne.symm h5]
  have bs : nl ∉ f.bar_and_space := by
    unfold TreeFormatting.bar_and_space FormatCharacters.bar_and_space
      FormatCharacters.horizontal_space_string
    refine nl_not_mem_append (nl_not_mem_append ?_ ?_) ?_
    · simp [Ne.symm h3]
    · exact nl_not_mem_repeat h5 _
    · split <;> simp [Ne.symm h5]
  unfold rowGlyph
  match remaining, lastRow with
  | 1, true => exact angle hc
  | 1, false => exact js
  | 0, true => exact tee hc
  | 0, false => exact bs
  | (n+2), true => exact tee hc
  | (n+2), false => exact bs

theorem nl_not_mem_rowsFor {f : TreeFormatting} (h : chars_no_nl f.chars = true)
    (hc : Bool) : ∀ s : List Nat, nl ∉ rowsFor f hc s
  | [] => by simp [rowsFor]
  | [r] => by
      simpa [rowsFor] using nl_not_mem_rowGlyph h r true hc
  | r :: r2 :: rest => by
      have ih := nl_not_mem_rowsFor h hc (r2 :: rest)
      simp only [rowsFor]
      exact nl_not_mem_append (nl_not_mem_rowGlyph h r false hc) ih

theorem nl_not_mem_prefixPart {f : TreeFormatting} (h : opt_no_nl f.prefix_str = true) :
    nl ∉ prefixPart f := by
  unfold prefixPart
  cases hp : f.prefix_str with
  | none => simp
  | some p =>
      rw [hp] at h
      simpa using (str_no_nl_iff p).mp h

theorem nl_not_mem_rootPart {f : TreeFormatting} (h : chars_no_nl f.chars = true)
    (stack : List Nat) : nl ∉ rootPart f stack := by
  obtain ⟨h1, -, -, -, -, -, -, h8⟩ := chars_no_nl_spec h
  unfold rootPart
  split
  · exact nl_not_mem_append (by simp [Ne.symm h1]) (nl_not_mem_repeat h8 _)
  · simp

end TextTrees

namespace TextTrees

theorem nl_not_mem_line_for {f : TreeFormatting} (hch : chars_no_nl f.chars = true)
    (hpre : opt_no_nl f.prefix_str = true) {t : TreeNode Str} (hlab : nl ∉ t.label)
    (stack : List Nat) : nl ∉ line_for f t stack := by
  unfold line_for
  exact nl_not_mem_append (nl_not_mem_append (nl_not_mem_append
    (nl_not_mem_prefixPart hpre) (nl_not_mem_rootPart hch stack))
    (nl_not_mem_rowsFor hch _ stack)) hlab

theorem labels_no_nl_spec {t : TreeNode Str} (h : labels_no_nl t = true) :
    nl ∉ t.label ∧ labels_no_nl_list t.children = true := by
  cases t with
  | mk d cs =>
      simp only [labels_no_nl, Bool.and_eq_true] at h
      exact ⟨(str_no_nl_iff d).mp h.1, h.2⟩

theorem labels_no_nl_list_spec {cs : List (TreeNode Str)}
    (h : labels_no_nl_list cs = true) : ∀ c ∈ cs, labels_no_nl c = true := by
  induction cs with
  | nil => intro c hc; cases hc
  | cons c rest ih =>
      simp only [labels_no_nl_list, Bool.and_eq_true] at h
      intro x hx
      rcases List.mem_cons.mp hx with rfl | hx2
      · exact h.1
      · exact ih h.2 x hx2

theorem write_children_eq_lines (f : TreeFormatting) (cs : List (TreeNode Str))
    (h : ∀ c ∈ cs, ∀ stack, write_tree_inner f c stack
        = ((lines_of f c stack).map (fun l => l ++ [nl])).flatten) :
    ∀ stack d, write_children f cs stack d
      = ((lines_children f cs stack d).map (fun l => l ++ [nl])).flatten := by
  induction cs with
  | nil => intro stack d; simp [write_children, lines_children]
  | cons c rest ih =>
      intro stack d
      simp only [write_children, lines_children, List.map_append, List.flatten_append]
      rw [h c (by simp) (stack ++ [d]), ih (fun x hx s => h x (by simp [hx]) s) stack (d - 1)]

theorem write_eq_lines (f : TreeFormatting) :
    ∀ t : TreeNode Str, ∀ stack, write_tree_inner f t stack
      = ((lines_of f t stack).map (fun l => l ++ [nl])).flatten := by
  intro t
  induction t using TreeNode.ind' with
  | h d cs ih =>
      intro stack
      simp only [write_tree_inner, lines_of, List.map_cons, List.flatten_cons]
      rw [write_children_eq_lines f cs (fun c hc s => ih c hc s) stack cs.length]

theorem lines_children_length (f : TreeFormatting) (cs : List (TreeNode Str))
    (h : ∀ c ∈ cs, ∀ stack, (lines_of f c stack).length = node_count c) :
    ∀ stack d, (lines_children f cs stack d).length = node_count_list cs := by
  induction cs with
  | nil => intro stack d; simp [lines_children, node_count_list]
  | cons c rest ih =>
      intro stack d
      simp only [lines_children, node_count_list, List.length_append]
      rw [h c (by simp) (stack ++ [d]), ih (fun x hx s => h x (by simp [hx]) s) stack (d - 1)]

theorem lines_of_length (f : TreeFormatting) :
    ∀ t : TreeNode Str, ∀ stack, (lines_of f t stack).length = node_count t := by
  intro t
  induction t using TreeNode.ind' with
  | h d cs ih =>
      intro stack
      simp only [lines_of, List.length_cons, node_count]
      rw [lines_children_length f cs (fun c hc s => ih c hc s) stack cs.length]
      omega

theorem lines_children_no_nl (f : TreeFormatting) (hch : chars_no_nl f.chars = true)
    (hpre : opt_no_nl f.prefix_str = true) (cs : List (TreeNode Str))
    (h : ∀ c ∈ cs, labels_no_nl c = true →
        ∀ stack, ∀ l ∈ lines_of f c stack, nl ∉ l)
    (hlab : labels_no_nl_list cs = true) :
    ∀ stack d, ∀ l ∈ lines_children f cs stack d, nl ∉ l := by
  induction cs with
  | nil => intro stack d l hl; simp [lines_children] at hl
  | cons c rest ih =>
      intro stack d l hl
      simp only [labels_no_nl_list, Bool.and_eq_true] at hlab
      simp only [lines_children, List.mem_append] at hl
      rcases hl with hl | hl
      · exact h c (by simp) hlab.1 (stack ++ [d]) l hl
      · exact ih (fun x hx => h x (by simp [hx])) hlab.2 stack (d - 1) l hl

theorem lines_of_no_nl (f : TreeFormatting) (hch : chars_no_nl f.chars = true)
    (hpre : opt_no_nl f.prefix_str = true) :
    ∀ t : TreeNode Str, labels_no_nl t = true →
      ∀ stack, ∀ l ∈ lines_of f t stack, nl ∉ l := by
  intro t
  induction t using TreeNode.ind' with
  | h d cs ih =>
      intro hlab stack l hl
      obtain ⟨hd, hcs⟩ := labels_no_nl_spec hlab
      simp only [lines_of, List.mem_cons] at hl
      rcases hl with rfl | hl
      · exact nl_not_mem_line_for hch hpre hd stack
      · exact lines_children_no_nl f hch hpre cs (fun c hc hc2 s => ih c hc hc2 s)
          hcs stack cs.length l hl

theorem lines_children_start (f : TreeFormatting) (cs : List (TreeNode Str))
    (h : ∀ c ∈ cs, ∀ stack, ∀ l ∈ lines_of f c stack, prefixPart f <+: l) :
    ∀ stack d, ∀ l ∈ lines_children f cs stack d, prefixPart f <+: l := by
  induction cs with
  | nil => intro stack d l hl; simp [lines_children] at hl
  | cons c rest ih =>
      intro stack d l hl
      simp only [lines_children, List.mem_append] at hl
      rcases hl with hl | hl
      · exact h c (by simp) (stack ++ [d]) l hl
      · exact ih (fun x hx => h x (by simp [hx])) stack (d - 1) l hl

theorem lines_of_start (f : TreeFormatting) :
    ∀ t : TreeNode Str, ∀ stack, ∀ l ∈ lines_of f t stack, prefixPart f <+: l := by
  intro t
  induction t using TreeNode.ind' with
  | h d cs ih =>
      intro stack l hl
      simp only [lines_of, List.mem_cons] at hl
      rcases hl with rfl | hl
      · unfold line_for
        simpa [List.append_assoc] using List.prefix_append (prefixPart f) _
      · exact lines_children_start f cs (fun c hc s => ih c hc s) stack cs.length l hl

theorem count_nl_flatten : ∀ L : List Str, (∀ l ∈ L, nl ∉ l) →
    List.count nl ((L.map (fun l => l ++ [nl])).flatten) = L.length := by
  intro L
  induction L with
  | nil => intro _; simp
  | cons l rest ih =>
      intro h
      simp only [List.map_cons, List.flatten_cons, List.count_append, List.length_cons]
      rw [ih (fun x hx => h x (by simp [hx]))]
      have : List.count nl l = 0 := List.count_eq_zero.mpr (h l (by simp))
      simp [this]
      omega

theorem split_lines_append {a : Str} (b : Str) (h : nl ∉ a) :
    split_lines (a ++ nl :: b) = a :: split_lines b := by
  induction a with
  | nil => simp [split_lines]
  | cons c a' ih =>
      have hc : ¬(c = nl) := fun he => h (by simp [he])
      have ha' : nl ∉ a' := fun hm => h (by simp [hm])
      simp only [List.cons_append, split_lines, if_neg hc, List.append_eq, ih ha']

theorem split_lines_flatten : ∀ L : List Str, (∀ l ∈ L, nl ∉ l) →
    split_lines ((L.map (fun l => l ++ [nl])).flatten) = L ++ [[]] := by
  intro L
  induction L with
  | nil => intro _; simp [split_lines]
  | cons l rest ih =>
      intro h
      simp only [List.map_cons, List.flatten_cons, List.cons_append]
      have : l ++ [nl] ++ ((rest.map (fun l => l ++ [nl])).flatten)
          = l ++ nl :: ((rest.map (fun l => l ++ [nl])).flatten) := by
        simp [List.append_assoc]
      rw [this, split_lines_append _ (h l (by simp)), ih (fun x hx => h x (by simp [hx]))]

end TextTrees

namespace TextTrees

theorem rowGlyph_false (f : TreeFormatting) (r : Nat) (hc hc2 : Bool) :
    rowGlyph f r false hc = rowGlyph f r false hc2 := by
  match r with
  | 0 => rfl
  | 1 => rfl
  | n + 2 => rfl

theorem rowsFor_append (f : TreeFormatting) (hc : Bool) (d : Nat) :
    ∀ s : List Nat, rowsFor f hc (s ++ [d])
      = (s.map (fun r => rowGlyph f r false hc)).flatten ++ rowGlyph f d true hc
  | [] => by simp [rowsFor]
  | [r] => by simp [rowsFor]
  | r :: r2 :: rest => by
      have ih := rowsFor_append f hc d (r2 :: rest)
      simp only [List.cons_append] at ih ⊢
      simp only [rowsFor, List.map_cons, List.flatten_cons, List.append_assoc]
      rw [ih]
      simp [List.append_assoc]

theorem rootPart_nonempty_stack (f : TreeFormatting) (s : List Nat) (d : Nat) :
    rootPart f (s ++ [d]) = [] := by
  unfold rootPart
  rw [if_neg]
  rintro ⟨-, h⟩
  exact List.cons_ne_nil _ _ (List.append_eq_nil.mp h).2

theorem rowGlyph_last (f : TreeFormatting) (hc : Bool) {k i : Nat} (h : i < k) :
    rowGlyph f (k - i) true hc
      = if i = k - 1 then f.angle hc else f.tee hc := by
  by_cases he : i = k - 1
  · have : k - i = 1 := by omega
    rw [this, if_pos he]
    rfl
  · have h2 : 2 ≤ k - i := by omega
    rw [if_neg he]
    match k - i, h2 with
    | n + 2, _ => rfl

theorem length_glyphs (f : TreeFormatting) (hb : f.anchor = AnchorPosition.Below)
    (hl : f.chars.label_space_count ≤ 1) (hc : Bool) :
    f.just_space.length = f.chars.horizontal_line_count + f.chars.label_space_count + 1 ∧
    f.bar_and_space.length = f.chars.horizontal_line_count + f.chars.label_space_count + 1 ∧
    (f.tee hc).length = f.chars.horizontal_line_count + f.chars.label_space_count + 1 ∧
    (f.angle hc).length = f.chars.horizontal_line_count + f.chars.label_space_count + 1 := by
  refine ⟨?_, ?_, ?_, ?_⟩
  · simp only [TreeFormatting.just_space, FormatCharacters.just_space,
      FormatCharacters.horizontal_space_string, char_repeat, List.length_append,
      List.length_replicate, List.length_singleton]
    split
    · next hp => simp; omega
    · next hp =>
        have : f.chars.label_space_count = 0 := by
          by_contra hz
          exact hp ⟨hb, by omega⟩
        simp [this]
        omega
  · simp only [TreeFormatting.bar_and_space, FormatCharacters.bar_and_space,
      FormatCharacters.horizontal_space_string, char_repeat, List.length_append,
      List.length_replicate, List.length_singleton]
    split
    · next hp => simp; omega
    · next hp =>
        have : f.chars.label_space_count = 0 := by
          by_contra hz
          exact hp ⟨hb, by omega⟩
        simp [this]
        omega
  · simp only [TreeFormatting.tee, FormatCharacters.horizontal_line_string,
      FormatCharacters.label_space, char_repeat, List.length_append,
      List.length_replicate, List.length_singleton, if_pos hb]
    simp
    omega
  · simp only [TreeFormatting.angle, FormatCharacters.horizontal_line_string,
      FormatCharacters.label_space, char_repeat, List.length_append,
      List.length_replicate, List.length_singleton, if_pos hb]
    simp
    omega

theorem length_rowsFor (f : TreeFormatting) (hb : f.anchor = AnchorPosition.Below)
    (hl : f.chars.label_space_count ≤ 1) (hc : Bool) :
    ∀ s : List Nat, (rowsFor f hc s).length
      = s.length * (f.chars.horizontal_line_count + f.chars.label_space_count + 1)
  | [] => by simp [rowsFor]
  | [r] => by
      obtain ⟨h1, h2, h3, h4⟩ := length_glyphs f hb hl hc
      simp only [rowsFor, List.length_singleton, one_mul]
      match r with
      | 0 => exact h3
      | 1 => exact h4
      | n + 2 => exact h3
  | r :: r2 :: rest => by
      have ih := length_rowsFor f hb hl hc (r2 :: rest)
      obtain ⟨h1, h2, h3, h4⟩ := length_glyphs f hb hl hc
      simp only [rowsFor, List.length_append, List.length_cons] at ih ⊢
      rw [ih]
      have : (rowGlyph f r false hc).length
          = f.chars.horizontal_line_count + f.chars.label_space_count + 1 := by
        match r with
        | 0 => exact h2
        | 1 => exact h1
        | n + 2 => exact h2
      rw [this]
      ring

end TextTrees

namespace TextTrees

theorem wbind_none {σ ε : Type} (r : σ × Option ε) : wbind r (fun s => (s, none)) = r := by
  rcases r with ⟨st, o⟩
  cases o <;> rfl

theorem wbind_assoc {σ ε : Type} (r : σ × Option ε) (k1 k2 : σ → σ × Option ε) :
    wbind (wbind r k1) k2 = wbind r (fun s => wbind (k1 s) k2) := by
  rcases r with ⟨st, o⟩
  cases o <;> rfl

theorem run_writes_append {σ ε : Type} (wr : σ → Str → σ × Option ε) :
    ∀ (a b : List Str) (st : σ), run_writes wr (a ++ b) st
      = wbind (run_writes wr a st) (fun s => run_writes wr b s) := by
  intro a
  induction a with
  | nil => intro b st; simp [run_writes, wbind]
  | cons c rest ih =>
      intro b st
      simp only [List.cons_append, run_writes]
      rw [wbind_assoc]
      congr 1
      funext s
      exact ih b s

theorem run_writes_single {σ ε : Type} (wr : σ → Str → σ × Option ε) (c : Str) (st : σ) :
    run_writes wr [c] st = wr st c := by
  simp only [run_writes]
  exact wbind_none _

theorem run_writes_if_single {σ ε : Type} (wr : σ → Str → σ × Option ε) (c : Prop)
    [Decidable c] (x : Str) (s : σ) :
    run_writes wr (if c then [x] else []) s = if c then wr s x else (s, none) := by
  split
  · exact run_writes_single wr x s
  · rfl

theorem writeM_children_eq_chunks {σ ε : Type} (wr : σ → Str → σ × Option ε)
    (f : TreeFormatting) (cs : List (TreeNode Str))
    (h : ∀ c ∈ cs, ∀ stack st, write_tree_innerM wr f c stack st
        = run_writes wr (chunks_of f c stack) st) :
    ∀ stack d st, write_childrenM wr f cs stack d st
      = run_writes wr (chunks_children f cs stack d) st := by
  induction cs with
  | nil => intro stack d st; simp [write_childrenM, chunks_children, run_writes]
  | cons c rest ih =>
      intro stack d st
      simp only [write_childrenM, chunks_children, run_writes_append]
      rw [h c (by simp) (stack ++ [d]) st]
      congr 1
      funext s
      exact ih (fun x hx stack2 st2 => h x (by simp [hx]) stack2 st2) stack (d - 1) s

theorem writeM_eq_chunks {σ ε : Type} (wr : σ → Str → σ × Option ε) (f : TreeFormatting) :
    ∀ (t : TreeNode Str) (stack : List Nat) (st : σ),
      write_tree_innerM wr f t stack st = run_writes wr (chunks_of f t stack) st := by
  intro t
  induction t using TreeNode.ind' with
  | h data cs ih =>
      intro stack st
      have hP : run_writes wr (match f.prefix_str with
            | some p => [p]
            | none => []) st
          = (match f.prefix_str with
            | some p => wr st p
            | none => (st, none)) := by
        cases f.prefix_str
        · rfl
        · exact run_writes_single wr _ st
      have hC := writeM_children_eq_chunks wr f cs
        (fun c hc stack2 st2 => ih c hc stack2 st2)
      simp only [write_tree_innerM, chunks_of, List.append_assoc, run_writes_append,
        run_writes_if_single, run_writes_single, hP]
      congr 1
      funext s1
      congr 1
      funext s2
      congr 1
      funext s3
      congr 1
      funext s4
      exact hC stack cs.length s4

theorem run_writes_err {σ ε : Type} (wr : σ → Str → σ × Option ε) :
    ∀ (l : List Str) (st0 st1 : σ) (e : ε),
      run_writes wr l st0 = (st1, some e) →
      ∃ k, ∃ hk : k < l.length, ∃ stk : σ,
        run_writes wr (l.take k) st0 = (stk, none) ∧
        wr stk (l.get ⟨k, hk⟩) = (st1, some e) := by
  intro l
  induction l with
  | nil => intro st0 st1 e h; simp [run_writes] at h
  | cons c rest ih =>
      intro st0 st1 e h
      simp only [run_writes] at h
      rcases hw : wr st0 c with ⟨s2, o⟩
      rw [hw] at h
      cases o with
      | some e2 =>
          simp only [wbind] at h
          refine ⟨0, by simp, st0, by simp [run_writes], ?_⟩
          simp only [List.get]
          rw [hw]
          exact h
      | none =>
          simp only [wbind] at h
          obtain ⟨k, hk, stk, h1, h2⟩ := ih s2 st1 e h
          refine ⟨k + 1, by simpa using Nat.succ_lt_succ hk, stk, ?_, ?_⟩
          · simp only [List.take_succ_cons, run_writes, hw, wbind]
            exact h1
          · simpa using h2
  
theorem run_writes_err_intro {σ ε : Type} (wr : σ → Str → σ × Option ε) :
    ∀ (l : List Str) (k : Nat) (hk : k < l.length) (st0 stk st1 : σ) (e : ε),
      run_writes wr (l.take k) st0 = (stk, none) →
      wr stk (l.get ⟨k, hk⟩) = (st1, some e) →
      run_writes wr l st0 = (st1, some e) := by
  intro l
  induction l with
  | nil => intro k hk; simp at hk
  | cons c rest ih =>
      intro k hk st0 stk st1 e h1 h2
      cases k with
      | zero =>
          simp only [List.take_zero, run_writes] at h1
          rcases h1 with ⟨rfl, -⟩
          simp only [List.get] at h2
          simp only [run_writes, h2, wbind]
      | succ k2 =>
          simp only [List.take_succ_cons, run_writes] at h1
          rcases hw : wr st0 c with ⟨s2, o⟩
          rw [hw] at h1
          cases o with
          | some e2 => simp [wbind] at h1
          | none =>
              simp only [wbind] at h1
              simp only [run_writes, hw, wbind]
              exact ih k2 (by simpa using hk) s2 stk st1 e h1 (by simpa using h2)

theorem run_writes_cursor {ε : Type} :
    ∀ (l : List Str) (st : Str),
      run_writes (cursor_write (ε := ε)) l st = (st ++ l.flatten, none) := by
  intro l
  induction l with
  | nil => intro st; simp [run_writes]
  | cons c rest ih =>
      intro st
      simp only [run_writes, cursor_write, wbind, List.flatten_cons]
      rw [ih]
      simp [List.append_assoc]

theorem row_chunks_flatten (f : TreeFormatting) (hc : Bool) :
    ∀ s : List Nat, (row_chunks f hc s).flatten = rowsFor f hc s
  | [] => by simp [row_chunks, rowsFor]
  | [r] => by simp [row_chunks, rowsFor]
  | r :: r2 :: rest => by
      have ih := row_chunks_flatten f hc (r2 :: rest)
      simp only [row_chunks, rowsFor, List.flatten_cons]
      rw [ih]

theorem chunks_children_flatten (f : TreeFormatting) (cs : List (TreeNode Str))
    (h : ∀ c ∈ cs, ∀ stack, (chunks_of f c stack).flatten = write_tree_inner f c stack) :
    ∀ stack d, (chunks_children f cs stack d).flatten = write_children f cs stack d := by
  induction cs with
  | nil => intro stack d; simp [chunks_children, write_children]
  | cons c rest ih =>
      intro stack d
      simp only [chunks_children, write_children, List.flatten_append]
      rw [h c (by simp) (stack ++ [d]), ih (fun x hx s => h x (by simp [hx]) s) stack (d - 1)]

theorem chunks_flatten (f : TreeFormatting) :
    ∀ (t : TreeNode Str) (stack : List Nat),
      (chunks_of f t stack).flatten = write_tree_inner f t stack := by
  intro t
  induction t using TreeNode.ind' with
  | h data cs ih =>
      intro stack
      have hC := chunks_children_flatten f cs (fun c hc s => ih c hc s) stack cs.length
      have hP : (match f.prefix_str with
            | some p => [p]
            | none => ([] : List Str)).flatten = prefixPart f := by
        rcases hp : f.prefix_str with _ | p <;> simp [prefixPart, hp]
      have hR : (if ¬(f.anchor = AnchorPosition.Below) ∧ stack = [] then
            [[f.chars.down_facing_angle] ++
              char_repeat f.chars.label_space_char f.chars.label_space_count]
          else ([] : List Str)).flatten = rootPart f stack := by
        unfold rootPart
        split <;> simp
      simp only [chunks_of, write_tree_inner, line_for, List.flatten_append,
        List.flatten_cons, List.flatten_nil]
      rw [hC, hP, hR, row_chunks_flatten]
      simp only [TreeNode.has_children, TreeNode.label, TreeNode.data, List.append_assoc]
      simp

theorem writeM_cursor {ε : Type} (f : TreeFormatting) (t : TreeNode Str)
    (stack : List Nat) (st : Str) :
    write_tree_innerM (cursor_write (ε := ε)) f t stack st
      = (st ++ write_tree_inner f t stack, none) := by
  rw [writeM_eq_chunks, run_writes_cursor, chunks_flatten]

end TextTrees

namespace TextTrees

theorem write_children_fuel_eq (f : TreeFormatting) (cs : List (TreeNode Str))
    (h : ∀ c ∈ cs, ∀ fuel stack, depth c ≤ fuel →
        write_tree_fuel f fuel c stack = some (write_tree_inner f c stack)) :
    ∀ fuel stack d, depth_list cs ≤ fuel →
      write_children_fuel f fuel cs stack d = some (write_children f cs stack d) := by
  induction cs with
  | nil => intro fuel stack d _; simp [write_children_fuel, write_children]
  | cons c rest ih =>
      intro fuel stack d hd
      simp only [depth_list] at hd
      have h1 : depth c ≤ fuel := le_trans (le_max_left _ _) hd
      have h2 : depth_list rest ≤ fuel := le_trans (le_max_right _ _) hd
      simp only [write_children_fuel, write_children]
      rw [h c (by simp) fuel (stack ++ [d]) h1,
        ih (fun x hx fuel2 stack2 hd2 => h x (by simp [hx]) fuel2 stack2 hd2) fuel stack (d - 1) h2]

theorem write_tree_fuel_eq (f : TreeFormatting) :
    ∀ (t : TreeNode Str) (fuel : Nat) (stack : List Nat), depth t ≤ fuel →
      write_tree_fuel f fuel t stack = some (write_tree_inner f t stack) := by
  intro t
  induction t using TreeNode.ind' with
  | h data cs ih =>
      intro fuel stack hd
      simp only [depth] at hd
      cases fuel with
      | zero => omega
      | succ fuel2 =>
          have h2 : depth_list cs ≤ fuel2 := by omega
          simp only [write_tree_fuel, write_tree_inner]
          rw [write_children_fuel_eq f cs
            (fun c hc fuel3 stack3 hd3 => ih c hc fuel3 stack3 hd3) fuel2 stack cs.length h2]

theorem lines_children_segment (f : TreeFormatting) :
    ∀ (cs : List (TreeNode Str)) (s : List Nat) (d : Nat) (i : Nat) (h : i < cs.length),
      ∃ pre post, lines_children f cs s d
        = pre ++ lines_of f (cs.get ⟨i, h⟩) (s ++ [d - i]) ++ post := by
  intro cs
  induction cs with
  | nil => intro s d i h; simp at h
  | cons c rest ih =>
      intro s d i h
      cases i with
      | zero =>
          refine ⟨[], lines_children f rest s (d - 1), ?_⟩
          simp [lines_children]
      | succ i2 =>
          obtain ⟨pre, post, hseg⟩ := ih s (d - 1) i2 (by simpa using h)
          refine ⟨lines_of f c (s ++ [d]) ++ pre, post, ?_⟩
          have : d - 1 - i2 = d - (i2 + 1) := by omega
          rw [this] at hseg
          simp only [lines_children, List.get, List.append_assoc]
          rw [hseg]
          simp [List.append_assoc]

theorem line_for_append (f : TreeFormatting) (t : TreeNode Str) (s : List Nat) (d : Nat) :
    line_for f t (s ++ [d])
      = prefixPart f ++ ((s.map (fun r => rowGlyph f r false t.has_children)).flatten
        ++ (rowGlyph f d true t.has_children ++ t.label)) := by
  unfold line_for
  rw [rootPart_nonempty_stack, rowsFor_append]
  simp [List.append_assoc]

theorem foldl_push (α : Type) (d : α) :
    ∀ (vs : List α) (acc : List (TreeNode α)),
      vs.foldl TreeNode.push (TreeNode.mk d acc)
        = TreeNode.mk d (acc ++ vs.map TreeNode.new) := by
  intro vs
  induction vs with
  | nil => intro acc; simp
  | cons v rest ih =>
      intro acc
      simp only [List.foldl_cons, TreeNode.push, TreeNode.push_node, List.map_cons]
      rw [ih]
      simp [TreeNode.new]

end TextTrees

namespace TextTrees

/-- Claim C1, counterexample: the four per-ancestor-row glyph strings do not
all have the same printed width. With the plain ASCII preset and left anchor
the blank continuation is 3 characters while the tee connector is 5; with
below anchor and a label spacing of 2 the widths are 4 and 5. -/
theorem c1_counterexample :
    (TreeFormatting.dir_tree_left FormatCharacters.ascii).just_space.length ≠
      ((TreeFormatting.dir_tree_left FormatCharacters.ascii).tee false).length ∧
    (TreeFormatting.dir_tree ascii_wide_label).just_space.length ≠
      ((TreeFormatting.dir_tree ascii_wide_label).tee false).length := by
  decide

/-- Claim C1, amended: for below-anchored formatting with label_space_count at
most 1, all four row glyph strings have printed width
horizontal_line_count + label_space_count + 1, and each line is the prefix,
one glyph per ancestor row, then the label, so the label starts at column
prefix length + depth × (horizontal_line_count + label_space_count + 1). -/
theorem c1_below_alignment (f : TreeFormatting) (hb : f.anchor = AnchorPosition.Below)
    (hl : f.chars.label_space_count ≤ 1) (hc : Bool) (t : TreeNode Str)
    (stack : List Nat) :
    (f.just_space.length
        = f.chars.horizontal_line_count + f.chars.label_space_count + 1 ∧
      f.bar_and_space.length
        = f.chars.horizontal_line_count + f.chars.label_space_count + 1 ∧
      (f.tee hc).length
        = f.chars.horizontal_line_count + f.chars.label_space_count + 1 ∧
      (f.angle hc).length
        = f.chars.horizontal_line_count + f.chars.label_space_count + 1) ∧
    line_for f t stack = (prefixPart f ++ rowsFor f t.has_children stack) ++ t.label ∧
    (prefixPart f ++ rowsFor f t.has_children stack).length
      = (prefixPart f).length
        + stack.length * (f.chars.horizontal_line_count + f.chars.label_space_count + 1) := by
  refine ⟨length_glyphs f hb hl hc, ?_, ?_⟩
  · unfold line_for rootPart
    rw [if_neg]
    · simp
    · rintro ⟨hn, -⟩
      exact hn hb
  · rw [List.length_append, length_rowsFor f hb hl t.has_children stack]

/-- Claim C1, witness: the amended alignment statement at the ASCII preset,
below anchor, on a concrete tree and ancestor stack. -/
theorem c1_below_alignment_witness :
    (TreeFormatting.dir_tree FormatCharacters.ascii).anchor = AnchorPosition.Below ∧
    (TreeFormatting.dir_tree FormatCharacters.ascii).chars.label_space_count ≤ 1 ∧
    (((TreeFormatting.dir_tree FormatCharacters.ascii).just_space.length
        = (TreeFormatting.dir_tree FormatCharacters.ascii).chars.horizontal_line_count
          + (TreeFormatting.dir_tree FormatCharacters.ascii).chars.label_space_count + 1 ∧
      (TreeFormatting.dir_tree FormatCharacters.ascii).bar_and_space.length
        = (TreeFormatting.dir_tree FormatCharacters.ascii).chars.horizontal_line_count
          + (TreeFormatting.dir_tree FormatCharacters.ascii).chars.label_space_count + 1 ∧
      ((TreeFormatting.dir_tree FormatCharacters.ascii).tee false).length
        = (TreeFormatting.dir_tree FormatCharacters.ascii).chars.horizontal_line_count
          + (TreeFormatting.dir_tree FormatCharacters.ascii).chars.label_space_count + 1 ∧
      ((TreeFormatting.dir_tree FormatCharacters.ascii).angle false).length
        = (TreeFormatting.dir_tree FormatCharacters.ascii).chars.horizontal_line_count
          + (TreeFormatting.dir_tree FormatCharacters.ascii).chars.label_space_count + 1) ∧
    line_for (TreeFormatting.dir_tree FormatCharacters.ascii) pair_tree [2, 1]
      = (prefixPart (TreeFormatting.dir_tree FormatCharacters.ascii)
          ++ rowsFor (TreeFormatting.dir_tree FormatCharacters.ascii)
              pair_tree.has_children [2, 1]) ++ pair_tree.label ∧
    (prefixPart (TreeFormatting.dir_tree FormatCharacters.ascii)
        ++ rowsFor (TreeFormatting.dir_tree FormatCharacters.ascii)
            pair_tree.has_children [2, 1]).length
      = (prefixPart (TreeFormatting.dir_tree FormatCharacters.ascii)).length
        + (2 : Nat) * ((TreeFormatting.dir_tree FormatCharacters.ascii).chars.horizontal_line_count
          + (TreeFormatting.dir_tree FormatCharacters.ascii).chars.label_space_count + 1)) :=
  ⟨rfl, by decide,
    c1_below_alignment (TreeFormatting.dir_tree FormatCharacters.ascii) rfl (by decide)
      false pair_tree [2, 1]⟩

end TextTrees

namespace TextTrees

set_option maxRecDepth 40000 in
/-- Claim C2, counterexample: with below anchor, ASCII preset and no prefix,
the line rendered for Child 1 is not the three-character-continuation line
given in the spec; that line does not occur in the output at all. -/
theorem c2_counterexample :
    spec_child1_line ∉
      split_lines (write_tree_inner (TreeFormatting.dir_tree FormatCharacters.ascii)
        doc_tree []) := by
  decide

set_option maxRecDepth 40000 in
/-- Claim C2, amended: rendering the documentation tree with below anchor,
ASCII preset and no prefix produces exactly the block of the crate
documentation, in which continuation columns under a vertical bar are four
characters wide (the line for Child 1 is a vertical bar, three spaces, then
the tee connector). -/
theorem c2_doc_tree_output :
    write_tree_inner (TreeFormatting.dir_tree FormatCharacters.ascii) doc_tree []
      = expected_doc_output := by
  decide

/-- Claim C3, counterexample: with the ASCII preset and below anchor
(label_space_count 1), the blank continuation is not one lead character plus
horizontal_line_count spaces, and neither is the bar continuation: one more
horizontal_space is appended to each. -/
theorem c3_counterexample :
    rowGlyph (TreeFormatting.dir_tree FormatCharacters.ascii) 1 false false ≠
      [' '] ++ char_repeat ' ' 2 ∧
    rowGlyph (TreeFormatting.dir_tree FormatCharacters.ascii) 2 false false ≠
      ['|'] ++ char_repeat ' ' 2 := by
  decide

/-- Claim C3, amended: for every non-last ancestor row the emitted
continuation is the lead character — horizontal_space when the remaining
count is 1, vertical_line otherwise — followed by horizontal_line_count
copies of horizontal_space, followed by exactly one extra horizontal_space
when the anchor is Below and label_space_count is positive, and nothing
else. -/
theorem c3_continuation_shape (f : TreeFormatting) (remaining : Nat) (hc : Bool) :
    rowGlyph f remaining false hc
      = (if remaining = 1 then [f.chars.horizontal_space] else [f.chars.vertical_line])
        ++ char_repeat f.chars.horizontal_space f.chars.horizontal_line_count
        ++ (if f.anchor = AnchorPosition.Below ∧ 0 < f.chars.label_space_count then
              [f.chars.horizontal_space]
            else []) := by
  match remaining with
  | 0 =>
      simp [rowGlyph, TreeFormatting.bar_and_space, FormatCharacters.bar_and_space,
        FormatCharacters.horizontal_space_string]
  | 1 =>
      simp [rowGlyph, TreeFormatting.just_space, FormatCharacters.just_space,
        FormatCharacters.horizontal_space_string]
  | n + 2 =>
      simp [rowGlyph, TreeFormatting.bar_and_space, FormatCharacters.bar_and_space,
        FormatCharacters.horizontal_space_string]

/-- Claim C4, counterexample: a single-node tree whose label contains an
embedded newline produces two line terminators, so the output has more lines
than the tree has nodes. -/
theorem c4_counterexample :
    List.count nl (write_tree_inner (TreeFormatting.dir_tree FormatCharacters.ascii)
        nl_label_tree []) ≠ node_count nl_label_tree := by
  decide

/-- Claim C4, amended: provided no label, no prefix and no glyph character
contains the line terminator, the rendered output contains exactly one line
terminator per node of the tree. -/
theorem c4_line_count (f : TreeFormatting) (t : TreeNode Str)
    (hch : chars_no_nl f.chars = true) (hpre : opt_no_nl f.prefix_str = true)
    (hlab : labels_no_nl t = true) :
    List.count nl (write_tree_inner f t []) = node_count t := by
  rw [write_eq_lines]
  rw [count_nl_flatten _ (lines_of_no_nl f hch hpre t hlab [])]
  exact lines_of_length f t []

/-- Claim C4, witness: the line count equals the node count for the
documentation tree with the ASCII preset. -/
theorem c4_line_count_witness :
    chars_no_nl (TreeFormatting.dir_tree FormatCharacters.ascii).chars = true ∧
    opt_no_nl (TreeFormatting.dir_tree FormatCharacters.ascii).prefix_str = true ∧
    labels_no_nl doc_tree = true ∧
    List.count nl (write_tree_inner (TreeFormatting.dir_tree FormatCharacters.ascii)
        doc_tree []) = node_count doc_tree :=
  ⟨by decide, by decide, by decide,
    c4_line_count (TreeFormatting.dir_tree FormatCharacters.ascii) doc_tree
      (by decide) (by decide) (by decide)⟩

/-- Claim C5: rendering a parent places each child at the parent stack
extended with the remaining-siblings count, and the child's own (innermost)
row glyph is the angle connector exactly when the child is the last of its
parent's children, the tee connector otherwise. -/
theorem c5_last_child_marking (f : TreeFormatting) (p : TreeNode Str) (s : List Nat)
    (i : Nat) (h : i < p.children.length) :
    lines_of f p s = line_for f p s :: lines_children f p.children s p.children.length ∧
    (∃ pre post, lines_children f p.children s p.children.length
        = pre ++ lines_of f (p.children.get ⟨i, h⟩) (s ++ [p.children.length - i]) ++ post) ∧
    line_for f (p.children.get ⟨i, h⟩) (s ++ [p.children.length - i])
      = prefixPart f
        ++ ((s.map (fun r =>
              rowGlyph f r false (p.children.get ⟨i, h⟩).has_children)).flatten
        ++ ((if i = p.children.length - 1 then
              f.angle (p.children.get ⟨i, h⟩).has_children
            else f.tee (p.children.get ⟨i, h⟩).has_children)
          ++ (p.children.get ⟨i, h⟩).label)) := by
  refine ⟨?_, lines_children_segment f p.children s p.children.length i h, ?_⟩
  · cases p with
    | mk d cs => rfl
  · rw [line_for_append, rowGlyph_last f _ h]

/-- Claim C5, witness: for the two-child tree, the first child is rendered
with the tee connector and is present in the parent's rendering. -/
theorem c5_last_child_marking_witness :
    0 < pair_tree.children.length ∧
    (lines_of (TreeFormatting.dir_tree FormatCharacters.ascii) pair_tree []
        = line_for (TreeFormatting.dir_tree FormatCharacters.ascii) pair_tree []
          :: lines_children (TreeFormatting.dir_tree FormatCharacters.ascii)
              pair_tree.children [] pair_tree.children.length ∧
    (∃ pre post, lines_children (TreeFormatting.dir_tree FormatCharacters.ascii)
          pair_tree.children [] pair_tree.children.length
        = pre ++ lines_of (TreeFormatting.dir_tree FormatCharacters.ascii)
            (pair_tree.children.get ⟨0, by decide⟩)
            ([] ++ [pair_tree.children.length - 0]) ++ post) ∧
    line_for (TreeFormatting.dir_tree FormatCharacters.ascii)
        (pair_tree.children.get ⟨0, by decide⟩) ([] ++ [pair_tree.children.length - 0])
      = prefixPart (TreeFormatting.dir_tree FormatCharacters.ascii)
        ++ ((([] : List Nat).map (fun r =>
              rowGlyph (TreeFormatting.dir_tree FormatCharacters.ascii) r false
                (pair_tree.children.get ⟨0, by decide⟩).has_children)).flatten
        ++ ((if 0 = pair_tree.children.length - 1 then
              (TreeFormatting.dir_tree FormatCharacters.ascii).angle
                (pair_tree.children.get ⟨0, by decide⟩).has_children
            else (TreeFormatting.dir_tree FormatCharacters.ascii).tee
                (pair_tree.children.get ⟨0, by decide⟩).has_children)
          ++ (pair_tree.children.get ⟨0, by decide⟩).label))) :=
  ⟨by decide,
    c5_last_child_marking (TreeFormatting.dir_tree FormatCharacters.ascii)
      pair_tree [] 0 (by decide)⟩

end TextTrees

namespace TextTrees

/-- Claim C6, counterexample: with a configured prefix, a label containing an
embedded newline yields a non-final textual line that does not begin with the
prefix. -/
theorem c6_counterexample :
    (split_lines (write_tree_inner
        (TreeFormatting.dir_tree_with_pre FormatCharacters.ascii (r">> ".data))
        nl_label_tree [])).length = 3 ∧
    ¬ ((r">> ".data) <+: (split_lines (write_tree_inner
        (TreeFormatting.dir_tree_with_pre FormatCharacters.ascii (r">> ".data))
        nl_label_tree [])).get ⟨1, by decide⟩) := by
  decide

/-- Claim C6, amended: when a prefix string is configured and neither it, the
glyph characters, nor the labels contain the newline character, the rendered
output splits into exactly the per-node lines, and every such line begins
with the prefix verbatim. -/
theorem c6_prefix_propagation (f : TreeFormatting) (p : Str) (t : TreeNode Str)
    (hp : f.prefix_str = some p) (hpn : str_no_nl p = true)
    (hch : chars_no_nl f.chars = true) (hlab : labels_no_nl t = true) :
    split_lines (write_tree_inner f t []) = lines_of f t [] ++ [[]] ∧
    ∀ l ∈ lines_of f t [], p <+: l := by
  have hpre : opt_no_nl f.prefix_str = true := by
    rw [hp]
    exact hpn
  constructor
  · rw [write_eq_lines]
    exact split_lines_flatten _ (fun l hl => lines_of_no_nl f hch hpre t hlab [] l hl)
  · intro l hl
    have hpp : prefixPart f = p := by
      unfold prefixPart
      rw [hp]
    have hs := lines_of_start f t [] l hl
    rwa [hpp] at hs

/-- Claim C6, witness: with the ASCII preset and a concrete prefix, every
line of the documentation tree's rendering starts with the prefix. -/
theorem c6_prefix_propagation_witness :
    (TreeFormatting.dir_tree_with_pre FormatCharacters.ascii (r">> ".data)).prefix_str
        = some (r">> ".data) ∧
    str_no_nl (r">> ".data) = true ∧
    chars_no_nl (TreeFormatting.dir_tree_with_pre FormatCharacters.ascii
        (r">> ".data)).chars = true ∧
    labels_no_nl doc_tree = true ∧
    (split_lines (write_tree_inner
          (TreeFormatting.dir_tree_with_pre FormatCharacters.ascii (r">> ".data))
          doc_tree [])
        = lines_of (TreeFormatting.dir_tree_with_pre FormatCharacters.ascii
            (r">> ".data)) doc_tree [] ++ [[]] ∧
      ∀ l ∈ lines_of (TreeFormatting.dir_tree_with_pre FormatCharacters.ascii
          (r">> ".data)) doc_tree [], (r">> ".data) <+: l) :=
  ⟨rfl, by decide, by decide, by decide,
    c6_prefix_propagation
      (TreeFormatting.dir_tree_with_pre FormatCharacters.ascii (r">> ".data))
      (r">> ".data) doc_tree rfl (by decide) (by decide) (by decide)⟩

/-- Claim C7: building a node from a data value and a list of child values
with with_children equals building it with new and then pushing each value in
order. -/
theorem c7_with_children_push (α : Type) (d : α) (vs : List α) :
    TreeNode.with_children d vs = vs.foldl TreeNode.push (TreeNode.new d) := by
  show TreeNode.with_children d vs = vs.foldl TreeNode.push (TreeNode.mk d [])
  rw [foldl_push α d vs []]
  rfl

/-- Claim C8: rendering against a fallible sink performs exactly the
sequence of write calls of the traversal, short-circuiting like the source:
it fails exactly when some write fails, returning that write's error and
state verbatim — the writes already performed are kept and no later write is
attempted — and it succeeds when every write succeeds. -/
theorem c8_sink_error_propagation {σ ε : Type} (wr : σ → Str → σ × Option ε)
    (f : TreeFormatting) (t : TreeNode Str) (stack : List Nat) (st : σ) :
    write_tree_innerM wr f t stack st = run_writes wr (chunks_of f t stack) st ∧
    (∀ (l : List Str) (st0 st1 : σ) (e : ε),
      run_writes wr l st0 = (st1, some e) →
      ∃ k, ∃ hk : k < l.length, ∃ stk : σ,
        run_writes wr (l.take k) st0 = (stk, none) ∧
        wr stk (l.get ⟨k, hk⟩) = (st1, some e)) ∧
    (∀ (l : List Str) (k : Nat) (hk : k < l.length) (st0 stk st1 : σ) (e : ε),
      run_writes wr (l.take k) st0 = (stk, none) →
      wr stk (l.get ⟨k, hk⟩) = (st1, some e) →
      run_writes wr l st0 = (st1, some e)) :=
  ⟨writeM_eq_chunks wr f t stack st, run_writes_err wr, run_writes_err_intro wr⟩

/-- Claim C8, witness: the chunk-sequence equality of the error-propagation
theorem at the in-memory sink, the ASCII preset and a concrete tree. -/
theorem c8_sink_error_propagation_witness :
    write_tree_innerM (cursor_write (ε := Unit)) (TreeFormatting.dir_tree
        FormatCharacters.ascii) pair_tree [] []
      = run_writes (cursor_write (ε := Unit))
          (chunks_of (TreeFormatting.dir_tree FormatCharacters.ascii) pair_tree []) [] :=
  (c8_sink_error_propagation (cursor_write (ε := Unit))
    (TreeFormatting.dir_tree FormatCharacters.ascii) pair_tree [] []).1

/-- Claim C9: the recursive traversal terminates on every finite tree: fuel
equal to the tree's depth suffices for the fuel-bounded renderer to converge
to the total renderer's output. -/
theorem c9_termination (f : TreeFormatting) (t : TreeNode Str) (stack : List Nat)
    (fuel : Nat) (h : depth t ≤ fuel) :
    write_tree_fuel f fuel t stack = some (write_tree_inner f t stack) :=
  write_tree_fuel_eq f t fuel stack h

/-- Claim C9, witness: six units of fuel render the five-level documentation
tree completely. -/
theorem c9_termination_witness :
    depth doc_tree ≤ 6 ∧
    write_tree_fuel (TreeFormatting.dir_tree FormatCharacters.ascii) 6 doc_tree []
      = some (write_tree_inner (TreeFormatting.dir_tree FormatCharacters.ascii)
          doc_tree []) :=
  ⟨by decide,
    c9_termination (TreeFormatting.dir_tree FormatCharacters.ascii) doc_tree [] 6
      (by decide)⟩

/-- Claim C10: to_string_with_format always succeeds — the in-memory buffer
sink never fails, so the result is Ok and contains exactly the rendered
text (the buffer holds character data throughout, so the UTF-8 conversion
cannot fail). -/
theorem c10_to_string_ok (ε : Type) (f : TreeFormatting) (t : TreeNode Str) :
    to_string_with_format ε t f = Except.ok (write_tree_inner f t []) := by
  unfold to_string_with_format write_with_format
  rw [writeM_cursor]
  simp

end TextTrees
